import Mathlib

/-!
Verification of the `scrapemonster` crawler (`src/scrapemonster/crawlers.py`)
against its natural-language specification.

Strings are modelled as `List Char` restricted to the ASCII fragment: the
Python code applies `str.isdigit`, `str.strip`, `re` character classes such
as `\d`, `\s`, `[a-zA-Z]` to text scraped from an English-language retail
site, and on ASCII text the Lean character predicates below agree with the
Python ones.  External collaborators (the browser, the `float` builtin and
the task-execution substrate) are modelled as parameters or as small
definitions that follow the specification's description of the substrate;
everything else is translated directly from the Python source.
-/

namespace Scrapemonster

/-- Python whitespace (the ASCII fragment of `\s` and of `str.strip`). -/
def isPyWs (c : Char) : Bool :=
  c = ' ' || c = '\t' || c = '\n' || c = '\r' || c = '\x0b' || c = '\x0c'

/-- ASCII letter, the regex class `[a-zA-Z]`. -/
def isAsciiLetter (c : Char) : Bool :=
  c.isAlpha

/-- ASCII digit, the regex class `\d` (on ASCII text) and `[0-9]`. -/
def isDigit09 (c : Char) : Bool :=
  c.isDigit

/-- ASCII alphanumeric, the regex class `[a-zA-Z0-9]`. -/
def isAsciiAlnum (c : Char) : Bool :=
  c.isAlpha || c.isDigit

/-- Numeric value of a digit character, Python's `int(d)`. -/
def digitVal (c : Char) : Nat :=
  c.toNat - '0'.toNat

/-- Dropping a satisfied prefix from a list whose head satisfies `p`
strictly shortens it. -/
theorem length_dropWhile_lt_of_head (p : Char → Bool) (l : List Char)
    (h : l ≠ []) (hp : p (l.head h) = true) :
    (l.dropWhile p).length < l.length := by
  cases l with
  | nil => exact absurd rfl h
  | cons a t =>
    simp only [List.head_cons] at hp
    simp only [List.dropWhile, hp, List.length_cons]
    exact Nat.lt_succ_of_le (List.dropWhile_sublist p).length_le

/-- Python `re.split(r"\s+", s)`: split `s` at maximal whitespace runs.
A leading (resp. trailing) whitespace run produces an empty first
(resp. last) piece, exactly as `re.split` does. -/
def splitWsF : Nat → List Char → List (List Char)
  | 0, s => [s.takeWhile (fun c => !isPyWs c)]
  | fuel + 1, s =>
      if s.dropWhile (fun c => !isPyWs c) = [] then
        [s.takeWhile (fun c => !isPyWs c)]
      else
        s.takeWhile (fun c => !isPyWs c) ::
          splitWsF fuel ((s.dropWhile (fun c => !isPyWs c)).dropWhile isPyWs)

def splitWs (s : List Char) : List (List Char) :=
  splitWsF s.length s

/-- Each `splitWs` step removes at least one character, so any fuel of at
least the input length yields the same result. -/
theorem splitWsF_congr :
    ∀ (f1 f2 : Nat) (s : List Char), s.length ≤ f1 → s.length ≤ f2 →
      splitWsF f1 s = splitWsF f2 s := by
  intro f1
  induction f1 with
  | zero =>
      intro f2 s h1 h2
      have h0 : s = [] := List.eq_nil_of_length_eq_zero (by omega)
      subst h0
      cases f2 <;> simp [splitWsF]
  | succ f1 ih =>
      intro f2 s h1 h2
      cases f2 with
      | zero =>
          have h0 : s = [] := List.eq_nil_of_length_eq_zero (by omega)
          subst h0
          simp [splitWsF]
      | succ f2 =>
          simp only [splitWsF]
          by_cases hrest : s.dropWhile (fun c => !isPyWs c) = []
          · rw [if_pos hrest, if_pos hrest]
          · rw [if_neg hrest, if_neg hrest]
            have hl1 : (s.dropWhile (fun c => !isPyWs c)).length ≤ s.length :=
              (List.dropWhile_sublist (fun c => !isPyWs c)).length_le
            have hl2 := length_dropWhile_lt_of_head isPyWs
              (s.dropWhile (fun c => !isPyWs c)) hrest
              (by simpa using List.head_dropWhile_not (fun c => !isPyWs c) s hrest)
            exact congrArg _ (ih f2 _ (by omega) (by omega))

/-- The recurrence `splitWs` satisfies: peel the maximal non-whitespace
prefix as one piece, skip the whitespace run, recurse. -/
theorem splitWs_eq (s : List Char) :
    splitWs s =
      if s.dropWhile (fun c => !isPyWs c) = [] then
        [s.takeWhile (fun c => !isPyWs c)]
      else
        s.takeWhile (fun c => !isPyWs c) ::
          splitWs ((s.dropWhile (fun c => !isPyWs c)).dropWhile isPyWs) := by
  unfold splitWs
  cases hn : s.length with
  | zero =>
      have h0 : s = [] := List.eq_nil_of_length_eq_zero hn
      subst h0
      simp [splitWsF]
  | succ n =>
      simp only [splitWsF]
      by_cases hrest : s.dropWhile (fun c => !isPyWs c) = []
      · rw [if_pos hrest, if_pos hrest]
      · rw [if_neg hrest, if_neg hrest]
        have hl1 : (s.dropWhile (fun c => !isPyWs c)).length ≤ s.length :=
          (List.dropWhile_sublist (fun c => !isPyWs c)).length_le
        have hl2 := length_dropWhile_lt_of_head isPyWs
          (s.dropWhile (fun c => !isPyWs c)) hrest
          (by simpa using List.head_dropWhile_not (fun c => !isPyWs c) s hrest)
        exact congrArg _ (splitWsF_congr n _ _ (by omega) (by omega))

/-- Python `" ".join(ts)`. -/
def joinSpace (ts : List (List Char)) : List Char :=
  List.intercalate [' '] ts

/-- Python `str.strip()` on ASCII text. -/
def pyStrip (s : List Char) : List Char :=
  ((s.dropWhile isPyWs).reverse.dropWhile isPyWs).reverse

/-!  ## The EAN-13 validator (`is_valid_ean13`, crawlers.py lines 22-30) -/

/-- Translation of `is_valid_ean13`.  Python's `ean.isdigit()` is false on
the empty string and otherwise requires every character to be a digit;
the explicit length check then restricts to exactly 13 characters. -/
def is_valid_ean13 (ean : List Char) : Bool :=
  if ean.isEmpty || !(ean.all isDigit09) || ean.length ≠ 13 then
    false
  else
    let digits := ean.map digitVal
    let checksum :=
      (10 - (((List.range 12).map
        (fun i => digits.getD i 0 * (if i % 2 = 0 then 1 else 3))).sum % 10)) % 10
    checksum == digits.getD 12 0

/-- The specification's characterisation of a valid EAN-13: exactly 13
numeric digits, and the 13th digit equals
`(10 − Σ(first 12 digits weighted alternately 1,3)) mod 10`. -/
def specEan13 (s : List Char) : Prop :=
  s.length = 13 ∧ (∀ c ∈ s, isDigit09 c = true) ∧
    digitVal (s.getD 12 '0') =
      (10 - ((∑ i ∈ Finset.range 12,
        (if i % 2 = 0 then 1 else 3) * digitVal (s.getD i '0')) % 10)) % 10

/-!  ## Name / quantity extraction (crawlers.py lines 127-141) -/

/-- The regex `" \d+[a-zA-Z]{1,2}\.$"` matched against the end of the
string, reading the reversed string: a final `'.'`, then one or two ASCII
letters, then at least one digit, then a literal space.  Taking the maximal
letter run is faithful: letters and digits are disjoint, so a match using
fewer letters than the maximal run would need a letter to be a digit. -/
def quantitySuffixRev : List Char → Bool
  | [] => false
  | c :: rest =>
      decide (c = '.') &&
        (decide (1 ≤ (rest.takeWhile isAsciiLetter).length) &&
         decide ((rest.takeWhile isAsciiLetter).length ≤ 2) &&
         decide (1 ≤ ((rest.dropWhile isAsciiLetter).takeWhile isDigit09).length) &&
         (match (rest.dropWhile isAsciiLetter).dropWhile isDigit09 with
          | e :: _ => decide (e = ' ')
          | [] => false))

/-- `re.search(r" \d+[a-zA-Z]{1,2}\.$", name)` as a Boolean: Python's `$`
matches at the end of the string or just before a final newline. -/
def hasQuantitySuffix (s : List Char) : Bool :=
  quantitySuffixRev s.reverse ||
    (match s.reverse with
     | '\n' :: r => quantitySuffixRev r
     | _ => false)

/-- For `re.sub(r"^\(.+\)\s*", "", s)`: the index (into `l = s[1:]`) of the
closing parenthesis the greedy `.+` stops before — the largest `i ≥ 1` with
`l[i] = ')'` such that `.+` can span `l[0..i-1]`, i.e. no newline occurs
before position `i` (`.` does not match `\n`). -/
def lastCloseParen (l : List Char) : Option Nat :=
  (List.range (l.takeWhile (fun c => c ≠ '\n')).length).foldl
    (fun best i => if l.getD i ' ' = ')' ∧ 1 ≤ i then some i else best) none

/-- `re.sub(r"^\(.+\)\s*", "", s)`: remove a leading parenthetical (greedy,
up to the last reachable `')'`) together with the whitespace following it;
if the pattern does not match, `s` is unchanged. -/
def stripLeadingParen (s : List Char) : List Char :=
  match s with
  | '(' :: rest =>
      match lastCloseParen rest with
      | some j => (rest.drop (j + 1)).dropWhile isPyWs
      | none => s
  | _ => s

/-- The `name` rewrite on the matched branch (crawlers.py lines 135-141):
split on whitespace, drop the last token, re-join with single spaces,
then strip a leading parenthetical qualifier. -/
def nameAfterSplit (s : List Char) : List Char :=
  stripLeadingParen (joinSpace ((splitWs s).dropLast))

/-- The `quantity` value on the matched branch (crawlers.py lines 129-134):
last whitespace-delimited token with all non-alphanumerics removed
(`re.sub(r"[^a-zA-Z0-9]", "", ·)`). -/
def quantityToken (s : List Char) : List Char :=
  ((splitWs s).getLastD []).filter isAsciiAlnum

/-- The combined name/quantity logic of `extract_product_info`
(crawlers.py lines 127-141): `quantity` starts as `None`, and both fields
are rewritten only when the raw name matches the trailing-quantity regex. -/
def extractNameQuantity (name : List Char) : List Char × Option (List Char) :=
  if hasQuantitySuffix name then
    (nameAfterSplit name, some (quantityToken name))
  else
    (name, none)

/-!  ## Barcode from the sku text (crawlers.py lines 143-150) -/

/-- The sku pipeline `pipe(sku, str.strip, re.split(r"\s+"), last)`:
strip, split on whitespace, take the last piece. -/
def skuLastToken (skuText : List Char) : List Char :=
  (splitWs (pyStrip skuText)).getLastD []

/-- Line 150: `barcode = f"EAN-13 {sku}" if is_valid_ean13(sku) else None`. -/
def skuBarcode (skuText : List Char) : Option (List Char) :=
  let sku := skuLastToken skuText
  if is_valid_ean13 sku then some ("EAN-13 ".data ++ sku) else none

/-- The specification's "last whitespace-delimited token of the raw sku
text": the maximal non-whitespace suffix once trailing whitespace is
ignored (empty when the text has no token). -/
def specLastToken (s : List Char) : List Char :=
  ((s.reverse.dropWhile isPyWs).takeWhile (fun c => !isPyWs c)).reverse

/-!  ## Details processing (crawlers.py lines 152-162) -/

/-- Space-or-tab, the regex class `[ \t]`. -/
def isSpaceTab (c : Char) : Bool :=
  c = ' ' || c = '\t'

/-- `re.sub(r"[ \t]+", " ", s)` with explicit fuel (any fuel of at least
the input length suffices, and `collapseSpaceTab` below supplies it):
collapse each maximal run of spaces and tabs to one space (other
whitespace, e.g. newlines, is left alone). -/
def collapseSpaceTabF : Nat → List Char → List Char
  | 0, s => s.takeWhile (fun c => !isSpaceTab c)
  | fuel + 1, s =>
      if s.dropWhile (fun c => !isSpaceTab c) = [] then
        s.takeWhile (fun c => !isSpaceTab c)
      else
        s.takeWhile (fun c => !isSpaceTab c) ++
          ' ' :: collapseSpaceTabF fuel
            ((s.dropWhile (fun c => !isSpaceTab c)).dropWhile isSpaceTab)

/-- `re.sub(r"[ \t]+", " ", s)`. -/
def collapseSpaceTab (s : List Char) : List Char :=
  collapseSpaceTabF s.length s

/-- The successful branch of the details block: collapse space/tab runs,
then Python `strip`. -/
def processDetails (d : List Char) : List Char :=
  pyStrip (collapseSpaceTab d)

/-- What the specification's words "whitespace-collapsed and trimmed"
describe: every maximal whitespace run (including newlines) becomes a
single space, then the ends are trimmed. -/
def specWsCollapse (s : List Char) : List Char :=
  pyStrip (joinSpace (((splitWs s).filter (fun t => t ≠ []))))

/-!  ## The extraction task `extract_product_info` (crawlers.py lines 102-191)

The browser, the page contents and Python's `float` builtin are external
collaborators; the page is modelled as the texts/attributes the locators
return, and `float` as a parameter `parsePrice` returning `none` exactly
when `float(text)` raises `ValueError`.  The record value type `α` is the
type of parsed prices. -/

/-- The texts and attributes that one product page yields to the task's
locators.  `detailsText = none` models the details locator timing out
(raising `TimeoutError`) after 100 ms. -/
structure PageData where
  rawName : List Char
  imageSrcs : List (Option (List Char))
  skuText : List Char
  detailsText : Option (List Char)
  priceText : List Char
  labelAlts : List (List Char)

/-- A JSON-able Python value appearing in the result dict. -/
inductive Val (α : Type) where
  | vnull : Val α
  | vstr : List Char → Val α
  | vnum : α → Val α
  | vimgs : List (Option (List Char)) → Val α
  | vlist : List (List Char) → Val α
deriving DecidableEq

/-- `None`-or-string as a dict value. -/
def optStr {α : Type} (o : Option (List Char)) : Val α :=
  match o with
  | none => Val.vnull
  | some s => Val.vstr s

/-- Labels post-processing (crawlers.py lines 173-178):
`map(str.strip)` then `filter(bool)` removes empty strings. -/
def processLabels (alts : List (List Char)) : List (List Char) :=
  (alts.map pyStrip).filter (fun l => l ≠ [])

/-- How the task exited: the returned dict or the propagated exception,
plus which clean-ups actually ran before the exit. -/
structure TaskExit (α : Type) where
  result : Except Unit (List (String × Val α))
  pageClosed : Bool
  browserClosed : Bool

/-- Translation of the body of `extract_product_info`.  `browserSupplied`
records whether the caller passed a browser (`browser is not None`); when
it did not, the task launches its own and sets `close_browser = True`.
`float(price)` failing raises `ValueError` at line 165, *before* the
`page.close()` / `browser.close()` calls of lines 188-190, so on that exit
path neither close runs. -/
def extract_product_info {α : Type} (parsePrice : List Char → Option α)
    (on_url : List Char) (browserSupplied : Bool) (pg : PageData) :
    TaskExit α :=
  let close_browser := !browserSupplied
  let nq := extractNameQuantity pg.rawName
  let barcode := skuBarcode pg.skuText
  let _details := pg.detailsText.map processDetails
  match parsePrice pg.priceText with
  | none =>
      { result := Except.error (), pageClosed := false, browserClosed := false }
  | some price =>
      { result := Except.ok
          [("name", Val.vstr nq.1),
           ("quantity", optStr nq.2),
           ("price", Val.vnum price),
           ("images", Val.vimgs pg.imageSrcs),
           ("barcode", optStr barcode),
           ("labels", Val.vlist (processLabels pg.labelAlts)),
           ("store_url", Val.vstr on_url)],
        pageClosed := true,
        browserClosed := close_browser }

/-- The task substrate's bounded-retry contract (`@task(retries=1)`):
run attempt `k`; on failure, retry while the retry budget lasts.  Returns
the final outcome and how many attempts ran. -/
def run_with_retries {β : Type} (attempt : Nat → Except Unit β) :
    Nat → Nat → Except Unit β × Nat
  | k, 0 => (attempt k, k + 1)
  | k, r + 1 =>
      match attempt k with
      | Except.ok b => (Except.ok b, k + 1)
      | Except.error _ => run_with_retries attempt (k + 1) r

/-- The records that reach the sink: one per successful extraction unit;
a failed unit contributes no record (`get_products` / `write_results`). -/
def get_products_records {R : Type} (results : List (Except Unit R)) : List R :=
  results.filterMap (fun r => r.toOption)

/-!  ## The product-discovery stabilization loop
(`find_product_pages`, crawlers.py lines 62-96)

The page is an external growth source, modelled as the sequence
`sample : Nat → Nat` of values `page.locator(...).count()` returns at the
successive sampling points: `sample 0` is the count read before the loop
(line 73), `sample (i+1)` the count read at the end of loop iteration `i`
(line 87). -/

/-- The loop's mutable state: the `deque([], 3)` ring buffer, the latest
`last_product_count`, `total_wait_time`, and how many loop iterations have
run (which sampling point comes next). -/
structure StabState where
  counts : List Nat
  lastCount : Nat
  totalWait : Nat
  iter : Nat
deriving DecidableEq, Repr

/-- `deque.append` on a deque with `maxlen=3`: push on the right, evicting
from the left when the buffer is full. -/
def dequeAppend3 (buf : List Nat) (x : Nat) : List Nat :=
  let b := buf ++ [x]
  if 3 < b.length then b.drop (b.length - 3) else b

/-- The `while` loop of `find_product_pages` (lines 76-91).  Each iteration
scrolls three times adding `wait_time = 500` ms each (lines 80-83), settles
for 2000 ms (uncounted, line 85), resamples (line 87), appends to the ring
buffer and adds another 500 ms (lines 89-90).  The guard re-reads
`product_counts.count(last_product_count) < 3 and total_wait_time <
max_wait_time`. -/
def find_product_pages_loop (sample : Nat → Nat) (maxWait : Nat)
    (s : StabState) : StabState :=
  if h : s.counts.count s.lastCount < 3 ∧ s.totalWait < maxWait then
    let totalWait1 := s.totalWait + 3 * 500
    let newCount := sample (s.iter + 1)
    find_product_pages_loop sample maxWait
      { counts := dequeAppend3 s.counts newCount,
        lastCount := newCount,
        totalWait := totalWait1 + 500,
        iter := s.iter + 1 }
  else s
termination_by maxWait - s.totalWait
decreasing_by omega

/-- The stabilization part of `find_product_pages`: empty ring buffer, the
initial sample, `total_wait_time = 0`, `max_wait_time = 300_000`; the
realized collection returned at the end is the one whose size the final
`lastCount` reports. -/
def find_product_pages (sample : Nat → Nat) : StabState :=
  find_product_pages_loop sample 300000
    { counts := [], lastCount := sample 0, totalWait := 0, iter := 0 }

/-!  ## The cache fingerprint policy (crawlers.py line 99)

`my_custom_policy = INPUTS + TASK_SOURCE - "browser"`.  The substrate's
policy algebra and fingerprint computation live in the task library, an
external collaborator; they are modelled from the specification's
description (spec section 4.3): a fingerprint hashes the task identity and the
normalized input arguments minus the policy's exclusion list, and two
invocations share a cache entry iff their fingerprints are equal. -/

/-- A cache policy: which fingerprint components to use and which input
keys are excluded. -/
structure CachePolicy where
  useInputs : Bool
  useTaskSource : Bool
  excludedKeys : List String
deriving DecidableEq

/-- The `INPUTS` policy: hash the input arguments. -/
def INPUTS : CachePolicy :=
  { useInputs := true, useTaskSource := false, excludedKeys := [] }

/-- The `TASK_SOURCE` policy: hash the task's source (its identity). -/
def TASK_SOURCE : CachePolicy :=
  { useInputs := false, useTaskSource := true, excludedKeys := [] }

/-- Policy addition `p + q`: combine the components of both. -/
def CachePolicy.add (p q : CachePolicy) : CachePolicy :=
  { useInputs := p.useInputs || q.useInputs,
    useTaskSource := p.useTaskSource || q.useTaskSource,
    excludedKeys := p.excludedKeys ++ q.excludedKeys }

/-- Policy subtraction `p - "key"`: exclude one input key. -/
def CachePolicy.sub (p : CachePolicy) (key : String) : CachePolicy :=
  { p with excludedKeys := p.excludedKeys ++ [key] }

/-- Line 99: `my_custom_policy = INPUTS + TASK_SOURCE - "browser"`. -/
def my_custom_policy : CachePolicy :=
  (INPUTS.add TASK_SOURCE).sub "browser"

/-- A named argument of an invocation of `extract_product_info`:
the string `on_url` or a browser handle (of an arbitrary handle type). -/
inductive ArgVal (β : Type) where
  | str : List Char → ArgVal β
  | browser : β → ArgVal β

/-- The fingerprint a policy computes for an invocation, modelled as the
data that gets hashed: the task source (if used) and the normalized input
bindings minus the excluded keys (if used). -/
def fingerprint {β : Type} (p : CachePolicy) (taskSource : String)
    (inputs : List (String × ArgVal β)) :
    Option String × Option (List (String × ArgVal β)) :=
  (if p.useTaskSource then some taskSource else none,
   if p.useInputs then
     some (inputs.filter (fun kv => !p.excludedKeys.contains kv.1))
   else none)

/-!  ## Flattening between pipeline stages (crawlers.py lines 238-243)

`list(chain.from_iterable(xss))`: iterate the per-input result lists in
input order, yielding the elements of each in turn. -/

/-- `itertools.chain.from_iterable` realized as a list. -/
def chain_from_iterable {γ : Type} (xss : List (List γ)) : List γ :=
  xss.foldl (fun acc l => acc ++ l) []

/-!  ## Theorems -/

/-- Index access into the mapped digit list agrees with mapping the
indexed character, inside the string. -/
theorem getD_map_digitVal (s : List Char) (i : Nat) (hi : i < s.length) :
    (s.map digitVal).getD i 0 = digitVal (s.getD i '0') := by
  rw [List.getD_eq_getElem?_getD, List.getD_eq_getElem?_getD, List.getElem?_map,
    List.getElem?_eq_getElem hi]
  simp

/-- The translated validator agrees pointwise with the specification's
characterisation of EAN-13 validity. -/
theorem ean13_code_iff_spec (s : List Char) :
    is_valid_ean13 s = true ↔ specEan13 s := by
  unfold is_valid_ean13
  split
  next hA =>
    simp only [Bool.or_eq_true, List.isEmpty_iff, Bool.not_eq_true',
      decide_eq_true_eq] at hA
    simp only [Bool.false_eq_true, false_iff]
    rintro ⟨h13, hdig, -⟩
    rcases hA with (h | h) | h
    · rw [h] at h13; simp at h13
    · rw [← Bool.not_eq_true, List.all_eq_true] at h
      push_neg at h
      obtain ⟨c, hc, hcd⟩ := h
      exact hcd (hdig c hc)
    · exact h h13
  next hA =>
    simp only [Bool.or_eq_true, List.isEmpty_iff, Bool.not_eq_true',
      decide_eq_true_eq, not_or, ne_eq, Decidable.not_not] at hA
    obtain ⟨⟨-, hall'⟩, h13⟩ := hA
    have hall : s.all isDigit09 = true := by
      cases h : s.all isDigit09 with
      | false => exact absurd h hall'
      | true => rfl
    have hdig : ∀ c ∈ s, isDigit09 c = true := List.all_eq_true.mp hall
    have hsum :
        (((List.range 12).map
          (fun i => (s.map digitVal).getD i 0 * (if i % 2 = 0 then 1 else 3))).sum) =
        ∑ i ∈ Finset.range 12,
          (if i % 2 = 0 then 1 else 3) * digitVal (s.getD i '0') := by
      have hconv :
          (((List.range 12).map
            (fun i => (s.map digitVal).getD i 0 * (if i % 2 = 0 then 1 else 3))).sum) =
          ∑ i ∈ Finset.range 12,
            (s.map digitVal).getD i 0 * (if i % 2 = 0 then 1 else 3) := rfl
      rw [hconv]
      refine Finset.sum_congr rfl fun i hi => ?_
      have hi13 : i < s.length := by
        have := Finset.mem_range.mp hi
        omega
      rw [getD_map_digitVal s i hi13]
      ring
    simp only [beq_iff_eq, hsum, getD_map_digitVal s 12 (by omega)]
    unfold specEan13
    simp only [h13, true_and]
    constructor
    · intro h
      exact ⟨hdig, h.symm⟩
    · rintro ⟨-, h⟩
      exact h.symm

/-- C3: `is_valid_ean13` accepts a string iff it is exactly 13 numeric
digits whose 13th digit equals `(10 − Σ(first 12 digits weighted
alternately 1,3)) mod 10`; anything not exactly 13 numeric characters is
rejected; "4006381333931" is accepted, "4006381333932" and "12345" are
rejected.  As a total function the validator never raises. -/
theorem ean13_accepts_iff_checksum :
    (∀ s : List Char, is_valid_ean13 s = true ↔ specEan13 s) ∧
    is_valid_ean13 "4006381333931".data = true ∧
    is_valid_ean13 "4006381333932".data = false ∧
    is_valid_ean13 "12345".data = false :=
  ⟨ean13_code_iff_spec, by decide, by decide, by decide⟩

/-- `deque.append` with `maxlen=3` keeps the buffer length at most 3. -/
theorem dequeAppend3_length (buf : List Nat) (x : Nat) (h : buf.length ≤ 3) :
    (dequeAppend3 buf x).length ≤ 3 := by
  unfold dequeAppend3
  dsimp only []
  split
  · simp only [List.length_drop, List.length_append, List.length_cons,
      List.length_nil]
    omega
  · simp only [List.length_append, List.length_cons, List.length_nil] at *
    omega

/-- Invariant of the `find_product_pages` loop: the ring buffer stays at
most 3 long; on exit the guard is false (plateau reached or wait budget
consumed); and, as long as the wait budget and the accumulated wait stay
multiples of the per-iteration 2000 ms, the accumulated wait never passes
the budget. -/
theorem find_product_pages_loop_spec (sample : Nat → Nat) (maxWait : Nat) :
    ∀ (n : Nat) (s : StabState), maxWait - s.totalWait ≤ n →
      s.counts.length ≤ 3 → 2000 ∣ s.totalWait → 2000 ∣ maxWait →
      s.totalWait ≤ maxWait →
      ((find_product_pages_loop sample maxWait s).counts.length ≤ 3 ∧
       (3 ≤ (find_product_pages_loop sample maxWait s).counts.count
            (find_product_pages_loop sample maxWait s).lastCount ∨
        maxWait ≤ (find_product_pages_loop sample maxWait s).totalWait) ∧
       (find_product_pages_loop sample maxWait s).totalWait ≤ maxWait) := by
  intro n
  induction n with
  | zero =>
      intro s hn hlen hdvd hdvdM hle
      have hguard : ¬(s.counts.count s.lastCount < 3 ∧ s.totalWait < maxWait) := by
        omega
      rw [find_product_pages_loop, dif_neg hguard]
      exact ⟨hlen, Or.inr (by omega), hle⟩
  | succ n ih =>
      intro s hn hlen hdvd hdvdM hle
      rw [find_product_pages_loop]
      by_cases hg : s.counts.count s.lastCount < 3 ∧ s.totalWait < maxWait
      · rw [dif_pos hg]
        refine ih _ ?_ (dequeAppend3_length _ _ hlen) ?_ hdvdM ?_
        · simp only []
          omega
        · simp only []
          omega
        · simp only []
          omega
      · rw [dif_neg hg]
        exact ⟨hlen, by omega, hle⟩

/-- C1: for every growth source, the stabilization loop of
`find_product_pages` stops only in a state where either the 3-slot ring
buffer consists entirely of copies of the latest sample (plateau) or the
accumulated wait has reached the 300 000 ms budget, and in every case —
plateau or not — it returns with the accumulated wait within the budget
(never an error: the function is total and yields the realized state). -/
theorem stabilization_plateau_or_budget (sample : Nat → Nat) :
    ((find_product_pages sample).counts =
        List.replicate 3 (find_product_pages sample).lastCount ∨
      300000 ≤ (find_product_pages sample).totalWait) ∧
    (find_product_pages sample).totalWait ≤ 300000 := by
  unfold find_product_pages
  obtain ⟨hlen, hstop, hle⟩ :=
    find_product_pages_loop_spec sample 300000 300000
      { counts := [], lastCount := sample 0, totalWait := 0, iter := 0 }
      (by simp) (by simp) ⟨0, rfl⟩ ⟨150, rfl⟩ (by simp)
  refine ⟨?_, hle⟩
  rcases hstop with h | h
  · left
    have hcl := List.count_le_length
      (find_product_pages_loop sample 300000
        { counts := [], lastCount := sample 0, totalWait := 0, iter := 0 }).lastCount
      (find_product_pages_loop sample 300000
        { counts := [], lastCount := sample 0, totalWait := 0, iter := 0 }).counts
    have hceq : List.count
        (find_product_pages_loop sample 300000
          { counts := [], lastCount := sample 0, totalWait := 0, iter := 0 }).lastCount
        (find_product_pages_loop sample 300000
          { counts := [], lastCount := sample 0, totalWait := 0, iter := 0 }).counts =
        (find_product_pages_loop sample 300000
          { counts := [], lastCount := sample 0, totalWait := 0, iter := 0 }).counts.length := by
      omega
    have hall := List.count_eq_length.mp hceq
    rw [List.eq_replicate_iff]
    exact ⟨by omega, fun b hb => (hall b hb).symm⟩
  · right
    exact h

/-- C8: the flattening between pipeline stages is concatenation of the
per-input result lists in input order; in particular `[[a,b],[c]]`
flattens to `[a,b,c]`. -/
theorem stage_flattening_preserves_input_order :
    (∀ (γ : Type) (xss : List (List γ)), chain_from_iterable xss = xss.flatten) ∧
    (∀ (γ : Type) (a b c : γ), chain_from_iterable [[a, b], [c]] = [a, b, c]) := by
  constructor
  · intro γ xss
    suffices h : ∀ acc : List γ,
        xss.foldl (fun acc l => acc ++ l) acc = acc ++ xss.flatten by
      simpa using h []
    induction xss with
    | nil => intro acc; simp
    | cons x xs ih =>
        intro acc
        simp [List.foldl_cons, ih, List.flatten]
  · intro γ a b c
    rfl

/-- C9: the cache fingerprint of `extract_product_info` under
`my_custom_policy` ignores the `browser` argument: the same URL with two
different browser handles fingerprints identically. -/
theorem fingerprint_insensitive_to_browser :
    ∀ (β : Type) (src : String) (url : List Char) (b1 b2 : β),
      fingerprint my_custom_policy src
        [("on_url", ArgVal.str url), ("browser", ArgVal.browser b1)] =
      fingerprint my_custom_policy src
        [("on_url", ArgVal.str url), ("browser", ArgVal.browser b2)] := by
  intro β src url b1 b2
  rfl

/-- `takeWhile` over an append stops at the door of `b` when `b`'s head
fails the predicate. -/
theorem takeWhile_append_head_false {p : Char → Bool} {b0 : Char}
    (a b : List Char) (hb : p b0 = false) :
    (a ++ b0 :: b).takeWhile p = a.takeWhile p := by
  induction a with
  | nil => simp [List.takeWhile, hb]
  | cons c cs ih =>
      cases hc : p c with
      | false => simp [List.takeWhile, hc]
      | true => simp [List.takeWhile, hc, ih]

/-- `dropWhile` over an append never reaches `b` when some element of `a`
fails the predicate. -/
theorem dropWhile_append_of_exists {p : Char → Bool} (a b : List Char)
    (ha : ∃ x ∈ a, p x = false) :
    (a ++ b).dropWhile p = a.dropWhile p ++ b := by
  induction a with
  | nil => obtain ⟨x, hx, -⟩ := ha; exact absurd hx (List.not_mem_nil x)
  | cons c cs ih =>
      cases hc : p c with
      | false => simp [List.dropWhile, hc]
      | true =>
          simp only [List.cons_append, List.dropWhile, hc]
          obtain ⟨x, hx, hpx⟩ := ha
          rcases List.mem_cons.mp hx with rfl | hx'
          · rw [hc] at hpx; cases hpx
          · exact ih ⟨x, hx', hpx⟩

/-- `splitWs` never returns the empty list of pieces. -/
theorem splitWs_ne_nil (s : List Char) : splitWs s ≠ [] := by
  rw [splitWs_eq]
  split <;> simp

/-- The last piece `splitWs` produces is the maximal non-whitespace suffix
of the input (empty when the input ends in whitespace). -/
theorem splitWs_getLastD_aux :
    ∀ (n : Nat) (t : List Char), t.length ≤ n →
      (splitWs t).getLastD [] =
        (t.reverse.takeWhile (fun c => !isPyWs c)).reverse := by
  intro n
  induction n with
  | zero =>
      intro t ht
      have h0 : t = [] := List.eq_nil_of_length_eq_zero (by omega)
      subst h0
      rw [splitWs_eq]
      simp
  | succ n ih =>
      intro t ht
      rw [splitWs_eq]
      split
      next hrest =>
        have htw : t.takeWhile (fun c => !isPyWs c) = t := by
          have hsplit := List.takeWhile_append_dropWhile (fun c => !isPyWs c) t
          rw [hrest, List.append_nil] at hsplit
          exact hsplit
        have hall : ∀ x ∈ t, (!isPyWs x) = true := by
          intro x hx
          rw [← htw] at hx
          exact List.mem_takeWhile_imp (p := fun c => !isPyWs c) hx
        have h2 : t.reverse.takeWhile (fun c => !isPyWs c) = t.reverse :=
          List.takeWhile_eq_self_iff.mpr
            (fun x hx => hall x (List.mem_reverse.mp hx))
        rw [htw, h2, List.reverse_reverse]
        simp [List.getLastD_cons]
      next hrest =>
        have hsplit := List.takeWhile_append_dropWhile (fun c => !isPyWs c) t
        have hhead : isPyWs ((t.dropWhile (fun c => !isPyWs c)).head hrest) = true := by
          simpa using List.head_dropWhile_not (fun c => !isPyWs c) t hrest
        obtain ⟨c, cs, hcons⟩ : ∃ c cs,
            t.dropWhile (fun c => !isPyWs c) = c :: cs := by
          cases hx : t.dropWhile (fun c => !isPyWs c) with
          | nil => exact absurd hx hrest
          | cons a b => exact ⟨a, b, rfl⟩
        have hc : isPyWs c = true := by
          have := hhead
          rw [show (t.dropWhile (fun c => !isPyWs c)).head hrest = c by
            rw [List.head_eq_iff_head?_eq_some]
            rw [hcons]
            rfl] at this
          exact this
        -- the whitespace run and the remainder of the rest
        have hwsr : (t.dropWhile (fun c => !isPyWs c)).takeWhile isPyWs =
            c :: cs.takeWhile isPyWs := by
          rw [hcons]
          simp [List.takeWhile, hc]
        have hrest_split :
            (t.dropWhile (fun c => !isPyWs c)).takeWhile isPyWs ++
              (t.dropWhile (fun c => !isPyWs c)).dropWhile isPyWs =
            t.dropWhile (fun c => !isPyWs c) :=
          List.takeWhile_append_dropWhile isPyWs _
        -- left side: the last piece comes from the recursive call
        have hlen : ((t.dropWhile (fun c => !isPyWs c)).dropWhile isPyWs).length ≤ n := by
          have l1 : (t.dropWhile (fun c => !isPyWs c)).length ≤ t.length :=
            (List.dropWhile_sublist _).length_le
          have l2 := length_dropWhile_lt_of_head isPyWs
            (t.dropWhile (fun c => !isPyWs c)) hrest hhead
          omega
        have hih := ih ((t.dropWhile (fun c => !isPyWs c)).dropWhile isPyWs) hlen
        have hne := splitWs_ne_nil ((t.dropWhile (fun c => !isPyWs c)).dropWhile isPyWs)
        obtain ⟨q, qs, hq⟩ : ∃ q qs,
            splitWs ((t.dropWhile (fun c => !isPyWs c)).dropWhile isPyWs) = q :: qs := by
          cases hx : splitWs ((t.dropWhile (fun c => !isPyWs c)).dropWhile isPyWs) with
          | nil => exact absurd hx hne
          | cons a b => exact ⟨a, b, rfl⟩
        rw [hq, List.getLastD_cons]
        rw [hq] at hih
        rw [show (q :: qs).getLastD (t.takeWhile (fun c => !isPyWs c)) =
          (q :: qs).getLastD [] from rfl, hih]
        -- right side: the reverse of t starts with the reverse of the
        -- remainder, then the (non-empty, all-whitespace) run
        congr 1
        have hwall : ∀ x ∈ (t.dropWhile (fun c => !isPyWs c)).takeWhile isPyWs,
            isPyWs x = true := fun x hx => List.mem_takeWhile_imp hx
        obtain ⟨b, bs, hb⟩ : ∃ b bs,
            ((t.dropWhile (fun c => !isPyWs c)).takeWhile isPyWs).reverse = b :: bs := by
          cases hx : ((t.dropWhile (fun c => !isPyWs c)).takeWhile isPyWs).reverse with
          | nil =>
              rw [List.reverse_eq_nil_iff, hwsr] at hx
              cases hx
          | cons u v => exact ⟨u, v, rfl⟩
        have hbws : isPyWs b = true := by
          refine hwall b ?_
          rw [← List.mem_reverse, hb]
          exact List.mem_cons_self b bs
        have htrev : t.reverse =
            ((t.dropWhile (fun c => !isPyWs c)).dropWhile isPyWs).reverse ++
              b :: (bs ++ (t.takeWhile (fun c => !isPyWs c)).reverse) := by
          conv_lhs => rw [← hsplit]
          rw [← hrest_split]
          simp only [List.reverse_append, hb]
          simp
        rw [htrev,
          takeWhile_append_head_false _ _ (by simp [hbws])]

/-- The last piece of `splitWs` is the maximal non-whitespace suffix. -/
theorem splitWs_getLastD (t : List Char) :
    (splitWs t).getLastD [] =
      (t.reverse.takeWhile (fun c => !isPyWs c)).reverse :=
  splitWs_getLastD_aux t.length t (le_refl _)

/-- Stripping leading whitespace before reversing does not change which
characters the trailing token consists of: the maximal non-whitespace
prefix of the reversed, right-trimmed text is the same whether or not the
left trim happened first. -/
theorem strip_token_eq (s : List Char) :
    ((s.dropWhile isPyWs).reverse.dropWhile isPyWs).takeWhile (fun c => !isPyWs c) =
      (s.reverse.dropWhile isPyWs).takeWhile (fun c => !isPyWs c) := by
  by_cases hu : s.dropWhile isPyWs = []
  · have hall : ∀ x ∈ s, isPyWs x = true := by
      intro x hx
      have hsplit := List.takeWhile_append_dropWhile isPyWs s
      rw [hu, List.append_nil] at hsplit
      rw [← hsplit] at hx
      exact List.mem_takeWhile_imp hx
    have hrev : s.reverse.dropWhile isPyWs = [] := by
      rw [List.dropWhile_eq_nil_iff]
      intro x hx
      exact hall x (List.mem_reverse.mp hx)
    rw [hu, hrev]
    simp
  · obtain ⟨c, cs, hcons⟩ : ∃ c cs, s.dropWhile isPyWs = c :: cs := by
      cases hx : s.dropWhile isPyWs with
      | nil => exact absurd hx hu
      | cons a b => exact ⟨a, b, rfl⟩
    have hchead : isPyWs c = false := by
      have := List.head_dropWhile_not isPyWs s hu
      rw [show (s.dropWhile isPyWs).head hu = c by
        rw [List.head_eq_iff_head?_eq_some, hcons]
        rfl] at this
      simpa using this
    have hcmem : c ∈ (s.dropWhile isPyWs).reverse := by
      rw [List.mem_reverse, hcons]
      exact List.mem_cons_self c cs
    have hrev : s.reverse =
        (s.dropWhile isPyWs).reverse ++ (s.takeWhile isPyWs).reverse := by
      rw [← List.reverse_append, List.takeWhile_append_dropWhile]
    rw [hrev, dropWhile_append_of_exists _ _ ⟨c, hcmem, hchead⟩]
    cases hw : (s.takeWhile isPyWs).reverse with
    | nil => simp
    | cons b bs =>
        have hbws : isPyWs b = true := by
          refine List.mem_takeWhile_imp (l := s) ?_
          rw [← List.mem_reverse, hw]
          exact List.mem_cons_self b bs
        exact (takeWhile_append_head_false _ _ (by simp [hbws])).symm

/-- The code's strip-split-last pipeline computes exactly the
specification's "last whitespace-delimited token of the raw sku text". -/
theorem skuLastToken_eq_specLastToken (s : List Char) :
    skuLastToken s = specLastToken s := by
  unfold skuLastToken specLastToken pyStrip
  rw [splitWs_getLastD, List.reverse_reverse]
  congr 1
  exact strip_token_eq s

/-- C6: the barcode field is computed from the last whitespace-delimited
token of the raw sku text — `"EAN-13 <code>"` when that token is a valid
EAN-13, `null` otherwise; an invalid token never raises (the pipeline is a
total function), it only yields `null`. -/
theorem barcode_from_last_sku_token :
    (∀ skuText : List Char,
      skuBarcode skuText =
        (if is_valid_ean13 (specLastToken skuText) then
          some ("EAN-13 ".data ++ specLastToken skuText)
        else none)) ∧
    skuBarcode "  SKU 4006381333931 ".data =
      some "EAN-13 4006381333931".data ∧
    skuBarcode "SKU notanumber".data = none := by
  refine ⟨fun s => ?_, by decide, by decide⟩
  unfold skuBarcode
  rw [skuLastToken_eq_specLastToken]

/-- A whitespace character is not a digit. -/
theorem ws_not_digit (c : Char) (h : isPyWs c = true) : isDigit09 c = false := by
  simp only [isPyWs, Bool.or_eq_true, decide_eq_true_eq] at h
  rcases h with ((((h | h) | h) | h) | h) | h <;> subst h <;> decide

/-- A whitespace character is not an ASCII letter. -/
theorem ws_not_letter (c : Char) (h : isPyWs c = true) : isAsciiLetter c = false := by
  simp only [isPyWs, Bool.or_eq_true, decide_eq_true_eq] at h
  rcases h with ((((h | h) | h) | h) | h) | h <;> subst h <;> decide

/-- A digit is not whitespace. -/
theorem digit_not_ws (c : Char) (h : isDigit09 c = true) : isPyWs c = false := by
  cases hw : isPyWs c with
  | false => rfl
  | true => rw [ws_not_digit c hw] at h; cases h

/-- An ASCII letter is not whitespace. -/
theorem letter_not_ws (c : Char) (h : isAsciiLetter c = true) : isPyWs c = false := by
  cases hw : isPyWs c with
  | false => rfl
  | true => rw [ws_not_letter c hw] at h; cases h

/-- A digit is not an ASCII letter. -/
theorem digit_not_letter (c : Char) (h : isDigit09 c = true) :
    isAsciiLetter c = false := by
  simp only [isDigit09, Char.isDigit, decide_eq_true_eq, Bool.and_eq_true] at h
  simp only [isAsciiLetter, Char.isAlpha, Char.isUpper, Char.isLower,
    Bool.or_eq_false_iff, Bool.and_eq_false_iff]
  obtain ⟨h1, h2⟩ := h
  have e1 : (UInt32.toBitVec 57).toNat = 57 := rfl
  have e2 : (UInt32.toBitVec 65).toNat = 65 := rfl
  have e3 : (UInt32.toBitVec 97).toNat = 97 := rfl
  constructor
  · left
    simp only [decide_eq_false_iff_not]
    intro hge
    simp only [ge_iff_le, UInt32.le_def, BitVec.le_def] at h2 hge
    omega
  · left
    simp only [decide_eq_false_iff_not]
    intro hge
    simp only [ge_iff_le, UInt32.le_def, BitVec.le_def] at h2 hge
    omega

/-- A digit is alphanumeric. -/
theorem digit_alnum (c : Char) (h : isDigit09 c = true) : isAsciiAlnum c = true := by
  simp only [isAsciiAlnum, Bool.or_eq_true]
  right
  exact h

/-- An ASCII letter is alphanumeric. -/
theorem letter_alnum (c : Char) (h : isAsciiLetter c = true) :
    isAsciiAlnum c = true := by
  simp only [isAsciiAlnum, Bool.or_eq_true]
  left
  exact h

/-- A list whose `dropWhile` leaves something contains a failing element. -/
theorem exists_false_of_dropWhile_ne_nil {p : Char → Bool} (a : List Char)
    (h : a.dropWhile p ≠ []) : ∃ x ∈ a, p x = false := by
  refine ⟨(a.dropWhile p).head h, ?_, by simpa using List.head_dropWhile_not p a h⟩
  exact (List.dropWhile_sublist p).subset (List.head_mem h)

/-- `splitWs` of an all-non-whitespace string is that one piece. -/
theorem splitWs_all_nonws (tok : List Char) (h : ∀ x ∈ tok, isPyWs x = false) :
    splitWs tok = [tok] := by
  rw [splitWs_eq]
  have hd : tok.dropWhile (fun c => !isPyWs c) = [] := by
    rw [List.dropWhile_eq_nil_iff]
    intro x hx
    simp [h x hx]
  rw [if_pos hd]
  congr 1
  exact List.takeWhile_eq_self_iff.mpr (fun x hx => by simp [h x hx])

/-- Appending a space and one whitespace-free token to a string not ending
in whitespace adds exactly that token as one extra piece of `splitWs`. -/
theorem splitWs_append_token :
    ∀ (n : Nat) (pre : List Char), pre.length ≤ n →
      (∀ c ∈ pre.getLast?, isPyWs c = false) →
      ∀ tok : List Char, tok ≠ [] → (∀ x ∈ tok, isPyWs x = false) →
        splitWs (pre ++ ' ' :: tok) = splitWs pre ++ [tok] := by
  intro n
  induction n with
  | zero =>
      intro pre hn hpre tok htok htokws
      have h0 : pre = [] := List.eq_nil_of_length_eq_zero (by omega)
      subst h0
      rw [List.nil_append, splitWs_eq]
      have hd : (' ' :: tok).dropWhile (fun c => !isPyWs c) = ' ' :: tok := by
        simp [List.dropWhile, isPyWs]
      rw [if_neg (by rw [hd]; simp)]
      have ht : (' ' :: tok).takeWhile (fun c => !isPyWs c) = [] := by
        simp [List.takeWhile, isPyWs]
      have hdw : (' ' :: tok).dropWhile isPyWs = tok := by
        cases tok with
        | nil => exact absurd rfl htok
        | cons d ds =>
            have hdws : isPyWs d = false := htokws d (List.mem_cons_self d ds)
            simp [List.dropWhile, hdws, show isPyWs ' ' = true from rfl]
      rw [hd, ht, hdw, splitWs_all_nonws tok htokws, splitWs_eq]
      simp
  | succ n ih =>
      intro pre hn hpre tok htok htokws
      rw [splitWs_eq (pre ++ ' ' :: tok), splitWs_eq pre]
      by_cases hpd : pre.dropWhile (fun c => !isPyWs c) = []
      · have hpall : ∀ x ∈ pre, (!isPyWs x) = true := by
          intro x hx
          have hsplit := List.takeWhile_append_dropWhile (fun c => !isPyWs c) pre
          rw [hpd, List.append_nil] at hsplit
          rw [← hsplit] at hx
          exact List.mem_takeWhile_imp (p := fun c => !isPyWs c) hx
        have h1 : (pre ++ ' ' :: tok).dropWhile (fun c => !isPyWs c) = ' ' :: tok := by
          rw [List.dropWhile_append_of_pos hpall]
          simp [List.dropWhile, isPyWs]
        have h2 : (pre ++ ' ' :: tok).takeWhile (fun c => !isPyWs c) = pre := by
          rw [List.takeWhile_append_of_pos hpall]
          simp [List.takeWhile, isPyWs]
        have hdw : (' ' :: tok).dropWhile isPyWs = tok := by
          cases tok with
          | nil => exact absurd rfl htok
          | cons d ds =>
              have hdws : isPyWs d = false := htokws d (List.mem_cons_self d ds)
              simp [List.dropWhile, hdws, show isPyWs ' ' = true from rfl]
        rw [if_neg (by rw [h1]; simp), if_pos hpd, h1, h2, hdw,
          splitWs_all_nonws tok htokws]
        have hpt : pre.takeWhile (fun c => !isPyWs c) = pre :=
          List.takeWhile_eq_self_iff.mpr hpall
        rw [hpt]
        rfl
      · obtain ⟨c, cs, hcons⟩ : ∃ c cs,
            pre.dropWhile (fun c => !isPyWs c) = c :: cs := by
          cases hx : pre.dropWhile (fun c => !isPyWs c) with
          | nil => exact absurd hx hpd
          | cons a b => exact ⟨a, b, rfl⟩
        have hc : isPyWs c = true := by
          have := List.head_dropWhile_not (fun c => !isPyWs c) pre hpd
          rw [show (pre.dropWhile (fun c => !isPyWs c)).head hpd = c by
            rw [List.head_eq_iff_head?_eq_some, hcons]
            rfl] at this
          simpa using this
        have hallA : ∀ x ∈ pre.takeWhile (fun c => !isPyWs c), (!isPyWs x) = true :=
          fun x hx => List.mem_takeWhile_imp (p := fun c => !isPyWs c) hx
        have hsp : pre.takeWhile (fun c => !isPyWs c) ++ (c :: cs) = pre := by
          rw [← hcons]
          exact List.takeWhile_append_dropWhile _ _
        have hs_assoc : pre ++ ' ' :: tok =
            pre.takeWhile (fun c => !isPyWs c) ++ c :: (cs ++ ' ' :: tok) := by
          conv_lhs => rw [← hsp]
          simp [List.append_assoc]
        have h1 : (pre ++ ' ' :: tok).takeWhile (fun c => !isPyWs c) =
            pre.takeWhile (fun c => !isPyWs c) := by
          conv_lhs => rw [hs_assoc]
          rw [List.takeWhile_append_of_pos hallA,
            List.takeWhile_cons_of_neg (by simp [hc]), List.append_nil]
        have h2 : (pre ++ ' ' :: tok).dropWhile (fun c => !isPyWs c) =
            c :: (cs ++ ' ' :: tok) := by
          conv_lhs => rw [hs_assoc]
          rw [List.dropWhile_append_of_pos hallA,
            List.dropWhile_cons_of_neg (by simp [hc])]
        rw [if_neg (by rw [h2]; simp), if_neg (by rw [hcons]; simp), h1, h2, hcons]
        have hstep : (c :: (cs ++ ' ' :: tok)).dropWhile isPyWs =
            (cs ++ ' ' :: tok).dropWhile isPyWs := by
          simp [List.dropWhile, hc]
        have hstep' : (c :: cs).dropWhile isPyWs = cs.dropWhile isPyWs := by
          simp [List.dropWhile, hc]
        rw [hstep, hstep']
        by_cases hcs : cs.dropWhile isPyWs = []
        · exfalso
          have hcsws : ∀ x ∈ cs, isPyWs x = true := by
            intro x hx
            rw [List.dropWhile_eq_nil_iff] at hcs
            exact hcs x hx
          have hlast_mem := List.getLast_mem (l := c :: cs) (by simp)
          have hlast_ws : isPyWs ((c :: cs).getLast (by simp)) = true := by
            rcases List.mem_cons.mp hlast_mem with h | h
            · rw [h]
              exact hc
            · exact hcsws _ h
          have hlast_eq : pre.getLast? = some ((c :: cs).getLast (by simp)) := by
            rw [← hsp, List.getLast?_append_of_ne_nil _ (by simp)]
            rfl
          have := hpre _ (by rw [hlast_eq]; rfl)
          rw [hlast_ws] at this
          cases this
        · have h3 : (cs ++ ' ' :: tok).dropWhile isPyWs =
              cs.dropWhile isPyWs ++ ' ' :: tok :=
            dropWhile_append_of_exists _ _ (exists_false_of_dropWhile_ne_nil cs hcs)
          rw [h3]
          have hlen : (cs.dropWhile isPyWs).length ≤ n := by
            have l1 : (cs.dropWhile isPyWs).length ≤ cs.length :=
              (List.dropWhile_sublist isPyWs).length_le
            have l2 := congrArg List.length hsp
            simp only [List.length_append, List.length_cons] at l2
            omega
          have hpre' : ∀ x ∈ (cs.dropWhile isPyWs).getLast?, isPyWs x = false := by
            intro x hx
            refine hpre x ?_
            have e1 : cs.takeWhile isPyWs ++ cs.dropWhile isPyWs = cs :=
              List.takeWhile_append_dropWhile _ _
            have e2 : cs.getLast? = (cs.dropWhile isPyWs).getLast? := by
              conv_lhs => rw [← e1]
              rw [List.getLast?_append_of_ne_nil _ hcs]
            have e3 : (c :: cs).getLast? = cs.getLast? := by
              have : c :: cs = [c] ++ cs := rfl
              rw [this, List.getLast?_append_of_ne_nil _ (by
                intro hnil
                rw [hnil] at hcs
                exact hcs rfl)]
            rw [← hsp, List.getLast?_append_of_ne_nil _ (by simp), e3, e2]
            exact hx
          rw [ih (cs.dropWhile isPyWs) hlen hpre' tok htok htokws]
          rfl

/-- A raw name of the shape `pre ⧺ " " ⧺ digits ⧺ letters ⧺ "."` (digits
non-empty, one or two letters, no space between number and unit) matches
the trailing-quantity regex. -/
theorem hasQuantitySuffix_of_decomp (pre digits letters : List Char)
    (hd : digits ≠ []) (hdall : ∀ c ∈ digits, isDigit09 c = true)
    (hl : letters.length = 1 ∨ letters.length = 2)
    (hlall : ∀ c ∈ letters, isAsciiLetter c = true) :
    hasQuantitySuffix (pre ++ ' ' :: (digits ++ (letters ++ ['.']))) = true := by
  have hrev : (pre ++ ' ' :: (digits ++ (letters ++ ['.']))).reverse =
      '.' :: (letters.reverse ++ (digits.reverse ++ ' ' :: pre.reverse)) := by
    simp
  unfold hasQuantitySuffix
  rw [hrev]
  obtain ⟨e, es, he⟩ : ∃ e es, digits.reverse = e :: es := by
    cases hx : digits.reverse with
    | nil => rw [List.reverse_eq_nil_iff] at hx; exact absurd hx hd
    | cons a b => exact ⟨a, b, rfl⟩
  have hemem : e ∈ digits := by
    rw [← List.mem_reverse, he]
    exact List.mem_cons_self e es
  have hedig : isDigit09 e = true := hdall e hemem
  have helet : isAsciiLetter e = false := digit_not_letter e hedig
  have hlrall : ∀ x ∈ letters.reverse, isAsciiLetter x = true :=
    fun x hx => hlall x (List.mem_reverse.mp hx)
  have htl : (letters.reverse ++ (digits.reverse ++ ' ' :: pre.reverse)).takeWhile
      isAsciiLetter = letters.reverse := by
    rw [List.takeWhile_append_of_pos hlrall, he, List.cons_append,
      List.takeWhile_cons_of_neg (by simp [helet]), List.append_nil]
  have hdl : (letters.reverse ++ (digits.reverse ++ ' ' :: pre.reverse)).dropWhile
      isAsciiLetter = digits.reverse ++ ' ' :: pre.reverse := by
    rw [List.dropWhile_append_of_pos hlrall, he, List.cons_append,
      List.dropWhile_cons_of_neg (by simp [helet]), ← List.cons_append, ← he]
  have hdrall : ∀ x ∈ digits.reverse, isDigit09 x = true :=
    fun x hx => hdall x (List.mem_reverse.mp hx)
  have htd : (digits.reverse ++ ' ' :: pre.reverse).takeWhile isDigit09 =
      digits.reverse := by
    rw [List.takeWhile_append_of_pos hdrall,
      List.takeWhile_cons_of_neg (by decide), List.append_nil]
  have hdd : (digits.reverse ++ ' ' :: pre.reverse).dropWhile isDigit09 =
      ' ' :: pre.reverse := by
    rw [List.dropWhile_append_of_pos hdrall,
      List.dropWhile_cons_of_neg (by decide)]
  have hmain : quantitySuffixRev
      ('.' :: (letters.reverse ++ (digits.reverse ++ ' ' :: pre.reverse))) = true := by
    simp only [quantitySuffixRev]
    rw [htl, hdl, htd, hdd]
    simp only [decide_eq_true_eq, List.length_reverse, he, List.length_cons,
      Bool.and_eq_true, decide_True]
    repeat' apply And.intro
    all_goals first
      | trivial
      | (rcases hl with h | h <;> omega)
  rw [hmain]
  simp

/-- On a raw name of the decomposed matched shape, the code rewrites the
name to `stripLeadingParen (joinSpace (splitWs pre))` and the quantity to
the digits and letters of the suffix. -/
theorem extractNameQuantity_decomp (pre digits letters : List Char)
    (hpre : ∀ c ∈ pre.getLast?, isPyWs c = false)
    (hd : digits ≠ []) (hdall : ∀ c ∈ digits, isDigit09 c = true)
    (hl : letters.length = 1 ∨ letters.length = 2)
    (hlall : ∀ c ∈ letters, isAsciiLetter c = true) :
    extractNameQuantity (pre ++ ' ' :: (digits ++ (letters ++ ['.']))) =
      (stripLeadingParen (joinSpace (splitWs pre)), some (digits ++ letters)) := by
  have htokws : ∀ x ∈ digits ++ (letters ++ ['.']), isPyWs x = false := by
    intro x hx
    rcases List.mem_append.mp hx with h | h
    · exact digit_not_ws x (hdall x h)
    · rcases List.mem_append.mp h with h2 | h2
      · exact letter_not_ws x (hlall x h2)
      · rw [List.mem_singleton.mp h2]
        decide
  have htok : digits ++ (letters ++ ['.']) ≠ [] := by simp
  have hsw := splitWs_append_token pre.length pre (le_refl _) hpre
    (digits ++ (letters ++ ['.'])) htok htokws
  unfold extractNameQuantity
  rw [if_pos (hasQuantitySuffix_of_decomp pre digits letters hd hdall hl hlall)]
  unfold nameAfterSplit quantityToken
  rw [hsw, List.dropLast_concat, List.getLastD_concat]
  have hfil : (digits ++ (letters ++ ['.'])).filter isAsciiAlnum =
      digits ++ letters := by
    rw [List.filter_append, List.filter_append]
    rw [List.filter_eq_self.mpr (fun a ha => digit_alnum a (hdall a ha)),
      List.filter_eq_self.mpr (fun a ha => letter_alnum a (hlall a ha))]
    have hdot : isAsciiAlnum '.' = false := by decide
    simp [hdot]
  rw [hfil]

/-- C2 counterexample: the specification's example fails on the code.  In
`"Fresh Milk 1 L."` a space separates the number from the unit, so the
regex `" \d+[a-zA-Z]{1,2}\.$"` (which requires the digits to touch the
letters) does not match: the code returns the name unchanged with
`quantity = None`, not `("Fresh Milk", "1L")`. -/
theorem nameQuantity_spec_example_fails :
    extractNameQuantity "Fresh Milk 1 L.".data =
      ("Fresh Milk 1 L.".data, none) ∧
    ¬(extractNameQuantity "Fresh Milk 1 L.".data =
        ("Fresh Milk".data, some "1L".data)) := by
  constructor
  · decide
  · decide

/-- C2 (amended): if the raw name ends in a quantity-like suffix in which
the number immediately touches the 1–2 letter unit before the period
(`" \d+[a-zA-Z]{1,2}\."`), the quantity becomes the trailing token
stripped of non-alphanumerics and the name becomes the remaining
whitespace-delimited tokens joined by single spaces with a leading
parenthetical removed; otherwise quantity is null and the name unchanged.
`"Fresh Milk 1L."` (no space inside the suffix) yields
`("Fresh Milk", "1L")`; the spec's `"Fresh Milk 1 L."` does not match and
is returned unchanged, and `"Organic Eggs"` is unchanged. -/
theorem nameQuantity_amended :
    (∀ s : List Char, hasQuantitySuffix s = false →
      extractNameQuantity s = (s, none)) ∧
    (∀ (pre digits letters : List Char),
      (∀ c ∈ pre.getLast?, isPyWs c = false) →
      digits ≠ [] → (∀ c ∈ digits, isDigit09 c = true) →
      (letters.length = 1 ∨ letters.length = 2) →
      (∀ c ∈ letters, isAsciiLetter c = true) →
      extractNameQuantity (pre ++ ' ' :: (digits ++ (letters ++ ['.']))) =
        (stripLeadingParen (joinSpace (splitWs pre)),
         some (digits ++ letters))) ∧
    extractNameQuantity "Fresh Milk 1L.".data =
      ("Fresh Milk".data, some "1L".data) ∧
    extractNameQuantity "Organic Eggs".data = ("Organic Eggs".data, none) := by
  refine ⟨?_, extractNameQuantity_decomp, by decide, by decide⟩
  intro s h
  unfold extractNameQuantity
  rw [if_neg (by simp [h])]

/-- Witness for `nameQuantity_amended` at a concrete input: the name
`"(Brand) Milk" ⧺ " " ⧺ "500" ⧺ "ML" ⧺ "."` is split into the cleaned name
and the quantity `"500ML"`. -/
theorem nameQuantity_amended_witness :
    extractNameQuantity
        ("(Brand) Milk".data ++ ' ' :: ("500".data ++ ("ML".data ++ ['.']))) =
      (stripLeadingParen (joinSpace (splitWs "(Brand) Milk".data)),
       some ("500".data ++ "ML".data)) :=
  nameQuantity_amended.2.1 "(Brand) Milk".data "500".data "ML".data
    (by decide) (by decide) (by decide) (by decide) (by decide)

/-- A stand-in for Python's `float` builtin at the concrete witness
inputs: parses a non-empty all-digit numeral, rejects anything else
(`float("N/A")` raises `ValueError`, `float("129")` succeeds). -/
def natPriceParse (s : List Char) : Option Nat :=
  if s ≠ [] ∧ s.all isDigit09 then
    some (s.foldl (fun a c => a * 10 + digitVal c) 0)
  else none

/-- A well-formed product page except that its displayed price text does
not parse as a number. -/
def badPricePage : PageData :=
  { rawName := "Fresh Milk 1L.".data,
    imageSrcs := [some "img1.jpg".data],
    skuText := "4006381333931".data,
    detailsText := none,
    priceText := "N/A".data,
    labelAlts := ["organic".data] }

/-- A fully well-formed product page. -/
def goodPage : PageData :=
  { rawName := "Organic Eggs".data,
    imageSrcs := [],
    skuText := "4006381333931".data,
    detailsText := none,
    priceText := "129".data,
    labelAlts := [] }

/-- C4: the task never closes a supplied browser on any exit path (true
half of the claim), but the self-opened browser is only closed on the
success path: on a price-parse failure with no supplied session the task
raises at line 165 before reaching `browser.close()` (line 190), so the
self-opened browser is left open — the code contradicts the
close-on-every-exit-path contract. -/
theorem extract_session_lifecycle :
    (∀ (α : Type) (parsePrice : List Char → Option α) (url : List Char)
       (pg : PageData),
      (extract_product_info parsePrice url true pg).browserClosed = false) ∧
    (extract_product_info natPriceParse "https://shop/p1".data false
        badPricePage).result = Except.error () ∧
    (extract_product_info natPriceParse "https://shop/p1".data false
        badPricePage).browserClosed = false ∧
    (extract_product_info natPriceParse "https://shop/p1".data false
        goodPage).browserClosed = true := by
  refine ⟨?_, rfl, rfl, rfl⟩
  intro α parsePrice url pg
  unfold extract_product_info
  cases hp : parsePrice pg.priceText <;> simp [hp]

/-- Retrying a deterministically failing attempt spends the whole retry
budget: the outcome is still the error and `r + 1` attempts run from
attempt `k`. -/
theorem run_with_retries_const_error {β : Type} (e : Except Unit β)
    (he : e = Except.error ()) :
    ∀ (k r : Nat), run_with_retries (fun _ => e) k r = (Except.error (), k + r + 1) := by
  subst he
  intro k r
  induction r generalizing k with
  | zero => simp [run_with_retries]
  | succ r ih =>
      simp only [run_with_retries]
      rw [ih (k + 1)]
      refine Prod.ext rfl ?_
      simp
      omega

/-- C5: a page whose displayed price text does not parse makes the
extraction unit fail hard (an error, not a record), deterministically
again on the single retry (`retries=1`, so exactly 2 attempts), and the
final record collection is exactly what it would be without that unit —
the record is absent, not emitted with a default price. -/
theorem price_parse_hard_failure :
    ∀ (α : Type) (parsePrice : List Char → Option α) (url : List Char)
      (supplied : Bool) (pg : PageData),
      parsePrice pg.priceText = none →
      (run_with_retries
         (fun _ => (extract_product_info parsePrice url supplied pg).result)
         0 1).1 = Except.error () ∧
      (run_with_retries
         (fun _ => (extract_product_info parsePrice url supplied pg).result)
         0 1).2 = 2 ∧
      ∀ (rs1 rs2 : List (Except Unit (List (String × Val α)))),
        get_products_records
            (rs1 ++ (extract_product_info parsePrice url supplied pg).result :: rs2) =
          get_products_records (rs1 ++ rs2) := by
  intro α parsePrice url supplied pg h
  have hres : (extract_product_info parsePrice url supplied pg).result =
      Except.error () := by
    unfold extract_product_info
    rw [h]
  have hrun := run_with_retries_const_error
    ((extract_product_info parsePrice url supplied pg).result) hres 0 1
  refine ⟨?_, ?_, ?_⟩
  · rw [hrun]
  · rw [hrun]
  · intro rs1 rs2
    simp [get_products_records, List.filterMap_append, List.filterMap_cons,
      hres, Except.toOption]

/-- Witness for `price_parse_hard_failure` on the concrete bad-price page:
two attempts both fail and the sink receives no record from it. -/
theorem price_parse_hard_failure_witness :
    natPriceParse badPricePage.priceText = none ∧
    ((run_with_retries
       (fun _ => (extract_product_info natPriceParse "https://shop/p1".data
          false badPricePage).result) 0 1).1 = Except.error () ∧
     (run_with_retries
       (fun _ => (extract_product_info natPriceParse "https://shop/p1".data
          false badPricePage).result) 0 1).2 = 2 ∧
     get_products_records
         ([] ++ (extract_product_info natPriceParse "https://shop/p1".data
            false badPricePage).result :: []) =
       get_products_records
         ([] ++ ([] : List (Except Unit (List (String × Val Nat))))) ) := by
  have h := price_parse_hard_failure Nat natPriceParse "https://shop/p1".data
    false badPricePage (by decide)
  exact ⟨by decide, h.1, h.2.1, h.2.2 [] []⟩

/-- C7 counterexample: the code collapses only space/tab runs
(`re.sub(r"[ \t]+", " ", ·)`), so a newline run survives: on
`"a\n\nb"` the code's details processing returns the text unchanged,
while "whitespace-collapsed and trimmed" (all whitespace runs to one
space) would give `"a b"`. -/
theorem details_not_fully_ws_collapsed :
    processDetails "a\n\nb".data = "a\n\nb".data ∧
    specWsCollapse "a\n\nb".data = "a b".data ∧
    ¬(processDetails "a\n\nb".data = specWsCollapse "a\n\nb".data) := by
  exact ⟨by decide, by decide, by decide⟩

/-- C7 (amended): absence of the details content within the 100 ms timeout
is a soft failure — the task outcome (result and clean-ups) is entirely
independent of the details content, so a details timeout is never
propagated and never fails the task; when the content is present it is
processed with space/tab runs collapsed to single spaces and then trimmed
(newline runs are preserved, not collapsed). -/
theorem details_soft_failure_never_propagates :
    (∀ (α : Type) (parsePrice : List Char → Option α) (url : List Char)
       (supplied : Bool) (pg : PageData) (d1 d2 : Option (List Char)),
      extract_product_info parsePrice url supplied
          { pg with detailsText := d1 } =
        extract_product_info parsePrice url supplied
          { pg with detailsText := d2 }) ∧
    processDetails "  a \t b\n c  ".data = "a b\n c".data := by
  constructor
  · intro α parsePrice url supplied pg d1 d2
    unfold extract_product_info
    rfl
  · decide

/-- C10: whenever the extraction task returns successfully, the returned
record consists of exactly the seven keys `name, quantity, price, images,
barcode, labels, store_url` in the order of the dict literal; `store_url`
is the input URL unchanged; and no `details` key exists — the computed
details text is never part of the record. -/
theorem record_shape_on_success :
    ∀ (α : Type) (parsePrice : List Char → Option α) (url : List Char)
      (supplied : Bool) (pg : PageData) (kvs : List (String × Val α)),
      (extract_product_info parsePrice url supplied pg).result =
          Except.ok kvs →
      kvs.map Prod.fst =
        ["name", "quantity", "price", "images", "barcode", "labels",
          "store_url"] ∧
      kvs.lookup "store_url" = some (Val.vstr url) ∧
      kvs.lookup "details" = none := by
  intro α parsePrice url supplied pg kvs h
  unfold extract_product_info at h
  cases hp : parsePrice pg.priceText with
  | none =>
      rw [hp] at h
      cases h
  | some price =>
      rw [hp] at h
      dsimp only at h
      simp only [Except.ok.injEq] at h
      subst h
      exact ⟨rfl, rfl, rfl⟩

/-- The record `extract_product_info` actually builds for `goodPage`. -/
def goodRecord : List (String × Val Nat) :=
  [("name", Val.vstr "Organic Eggs".data),
   ("quantity", Val.vnull),
   ("price", Val.vnum 129),
   ("images", Val.vimgs []),
   ("barcode", Val.vstr "EAN-13 4006381333931".data),
   ("labels", Val.vlist []),
   ("store_url", Val.vstr "https://shop/p1".data)]

/-- Witness for `record_shape_on_success` on the concrete good page. -/
theorem record_shape_on_success_witness :
    goodRecord.map Prod.fst =
      ["name", "quantity", "price", "images", "barcode", "labels",
        "store_url"] ∧
    goodRecord.lookup "store_url" =
      some (Val.vstr "https://shop/p1".data) ∧
    goodRecord.lookup "details" = none :=
  record_shape_on_success Nat natPriceParse "https://shop/p1".data false
    goodPage goodRecord (by rfl)

end Scrapemonster
